import Mathlib

/-!
Verification of the storage-manager subsystem of labctrl (`labctrl/datahandler.py`,
class `DataSaver`).

The embedding below translates the source methods into pure Lean functions:

* the h5py index argument of `save_data` becomes `Index` (Python's `...` is
  `Index.ellipsis`, a tuple of ints and slices is `Index.tup`, and any other
  Python value, rejected by `_validate_index`, is `Index.nonTuple`);
* the mutable `DataSaver` object becomes an explicit state `SState` threaded
  through the operations; every method returns the new state together with the
  list of calls it issued to the underlying array store (`StoreOp`) and an
  optional raised error.  A raised Python exception aborts the method at the
  raise point, so the returned state reflects exactly the mutations performed
  before the raise;
* the single Python exception class `DataSavingError` is refined into an
  inductive whose constructors record which of the distinct error messages of
  the source was raised;
* the store itself (h5py) is external: whether a store call succeeds is an
  oracle parameter (`writeOk` for dataset writes, a `failList` of dataset
  names whose resize/delete call fails during exit trimming).

Python's dicts preserve insertion order (`track_order=True` is used
throughout the source), so `dataspec` is an association list.  Iteration over
the Python *sets* `coordinates` and `dataspec.keys() - coordinates` in
`_initialize_datasets` has unspecified order; the embedding determinizes both
to key-declaration order, which is sound for every property proved below
(none depends on the order chosen inside either of the two groups).
-/

set_option autoImplicit false

namespace Datahandler

/-- One component of an h5py index tuple: a slice (only `stop` is ever read by
`_track_size`; `start` and `step` are carried for fidelity) or an integer. -/
inductive IndexItem where
  | slice (start stop step : Option Int)
  | int (i : Int)
deriving DecidableEq

/-- The `index` argument of `save_data`: Python's `...`, a tuple, or any other
value (e.g. a bare int or slice), which `_validate_index` rejects. -/
inductive Index where
  | ellipsis
  | tup (items : List IndexItem)
  | nonTuple
deriving DecidableEq

/-- The `chunks` entry of a dataspec: `bool` (`True` requests h5py
auto-chunking) or an explicit per-axis chunk tuple. -/
inductive Chunks where
  | bool (b : Bool)
  | explicit (t : List Int)
deriving DecidableEq

/-- One value of the `dataspec` mapping, plus the `"size"` entry that
`__enter__` adds to it (the tracked extent vector). -/
structure DSpec where
  shape : List Int
  chunks : Chunks := .bool true
  dtype : Option String := none
  dims : Option (List String) := none
  units : Option String := none
  size : List Int := []
deriving DecidableEq

/-- A call issued to the underlying array store (h5py). -/
inductive StoreOp where
  | openFile
  | createDataset (name : String) (shape : List Int) (maxshape : Option (List Int))
      (chunks : Chunks) (dtype units : Option String)
  | setLabel (name : String) (axis : Nat) (label : String)
  | attachScale (name : String) (axis : Nat) (coord : String)
  | writeData (name : String) (idx : Index)
  | flushFile
  | deleteDataset (name : String)
  | resizeDataset (name : String) (newShape : List Int)
  | closeFile
deriving DecidableEq

/-- The distinct error conditions of the source; every one of them is raised
as `DataSavingError` in Python, distinguished by its message. -/
inductive DataSavingError where
  | sessionLocked
  | sessionClosed
  | unknownDataset
  | indexTypeError
  | rankMismatch
  | storeWriteFailed
  | trimFailed
deriving DecidableEq

/-- The mutable state of a `DataSaver` object: `_lock`, whether `_file` is an
open handle (`fileOpen = false` models `_file is None`), and `_dataspec`. -/
structure SState where
  lock : Bool := false
  fileOpen : Bool := false
  dataspec : List (String × DSpec)
deriving DecidableEq

/-- Result of one method call: the state after the call, the store calls it
performed, and the error it raised (if any). -/
structure CallResult where
  st : SState
  ops : List StoreOp
  err : Option DataSavingError
deriving DecidableEq

/-- `DataSaver._find_coordinates`: the dataset names that also appear in some
dataset's `dims` tuple (Python: `self._dataspec.keys() & set(all_dims)`,
determinized to key-declaration order). -/
def all_dims (dataspec : List (String × DSpec)) : List String :=
  dataspec.flatMap (fun p => p.2.dims.getD [])

def find_coordinates (dataspec : List (String × DSpec)) : List String :=
  (dataspec.map Prod.fst).filter (fun n => (all_dims dataspec).contains n)

/-- `DataSaver._create_dataset`: the h5py `create_dataset` call it issues.
The source always passes `maxshape=shape` (every dataset is resizable). -/
def create_dataset_args (name : String) (shape : List Int) (chunks : Chunks)
    (dtype units : Option String) : StoreOp :=
  .createDataset name shape (some shape) chunks dtype units

/-- The loop body of `DataSaver._dimensionalize_dataset`:
`for idx, label in enumerate(dims)` starting at position `i`. -/
def dim_ops (name : String) (coordinates : List String) : Nat → List String → List StoreOp
  | _, [] => []
  | i, l :: ls =>
      .setLabel name i l ::
        ((if coordinates.contains l then [.attachScale name i l] else []) ++
          dim_ops name coordinates (i + 1) ls)

def dimensionalize_ops (name : String) (coordinates : List String)
    (dims : List String) : List StoreOp :=
  dim_ops name coordinates 0 dims

/-- `DataSaver._initialize_datasets`: create every coordinate first (its
`dims`, if any, is popped and discarded), then every remaining dataset,
labelling/attaching scales right after each non-coordinate creation. -/
def initialize_datasets (dataspec : List (String × DSpec)) : List StoreOp :=
  let coordinates := find_coordinates dataspec
  let coordOps := dataspec.filterMap (fun p =>
    if coordinates.contains p.1 then
      some (create_dataset_args p.1 p.2.shape p.2.chunks p.2.dtype p.2.units)
    else none)
  let dataOps := dataspec.flatMap (fun p =>
    if coordinates.contains p.1 then []
    else
      create_dataset_args p.1 p.2.shape p.2.chunks p.2.dtype p.2.units ::
        (match p.2.dims with
         | none => []
         | some ds => dimensionalize_ops p.1 coordinates ds))
  coordOps ++ dataOps

/-- `DataSaver.__enter__`: raise if `_lock` is set (before touching the
store), else open the file and give every dataset a fresh all-zero size
vector of its rank. -/
def dsEnter (st : SState) : CallResult :=
  if st.lock then ⟨st, [], some .sessionLocked⟩
  else
    ⟨⟨st.lock, true,
      st.dataspec.map (fun p =>
        (p.1, { p.2 with size := List.replicate p.2.shape.length 0 }))⟩,
      [.openFile], none⟩

/-- The per-item update of `DataSaver._track_size`: a slice with `stop=None`
marks the axis fully written, a bounded slice and an int take the max with
the previous value. -/
def track_item (s z : Int) : IndexItem → Int
  | .slice _ none _ => s
  | .slice _ (some stop) _ => max z stop
  | .int i => max z i

/-- The loop of `DataSaver._track_size` over `enumerate(index)`; the
fall-through cases (rank mismatch, never reached after `_validate_index`)
leave the size unchanged. -/
def track_loop : List Int → List Int → List IndexItem → List Int
  | _, z, [] => z
  | s0 :: ss, z0 :: zs, it :: its => track_item s0 z0 it :: track_loop ss zs its
  | _, z, _ => z

/-- `DataSaver._track_size` as a function of the dataset's declared shape,
its previous size vector and the write's index. -/
def track_size (shape size : List Int) (index : Index) : List Int :=
  match index with
  | .ellipsis => shape
  | .tup items => track_loop shape size items
  | .nonTuple => size

/-- `DataSaver._validate_index`: `...` passes, a non-tuple raises, a tuple of
the wrong length raises. -/
def validate_index (ndim : Nat) (index : Index) : Option DataSavingError :=
  match index with
  | .ellipsis => none
  | .nonTuple => some .indexTypeError
  | .tup items => if ndim = items.length then none else some .rankMismatch

/-- Lookup of a dataset by name.  During a session the datasets present in
the file are exactly the dataspec keys (all were created at construction and
none is deleted before `__exit__`), so `self._file[name]` is modelled as a
dataspec lookup; `_get_dataset` turns the `KeyError` into a raise. -/
def lookupSpec (dataspec : List (String × DSpec)) (name : String) : Option DSpec :=
  (dataspec.find? (fun p => p.1 == name)).map Prod.snd

def setSize (dataspec : List (String × DSpec)) (name : String) (sz : List Int) :
    List (String × DSpec) :=
  dataspec.map (fun p => if p.1 == name then (p.1, { p.2 with size := sz }) else p)

/-- `DataSaver.save_data`.  `writeOk` is the store oracle: whether the
delegated write (`dataset[index] = data` followed by `flush`) succeeds.
The extent is tracked only after a successful store write, mirroring the
statement order of the source. -/
def save_data (writeOk : Bool) (st : SState) (name : String) (index : Index) :
    CallResult :=
  if st.fileOpen = false then ⟨st, [], some .sessionClosed⟩
  else
    match lookupSpec st.dataspec name with
    | none => ⟨st, [], some .unknownDataset⟩
    | some sp =>
      match validate_index sp.shape.length index with
      | some e => ⟨st, [], some e⟩
      | none =>
        if writeOk then
          ⟨⟨st.lock, st.fileOpen,
              setSize st.dataspec name (track_size sp.shape sp.size index)⟩,
            [.writeData name index, .flushFile], none⟩
        else ⟨st, [], some .storeWriteFailed⟩

/-- The trim decision of `DataSaver.__exit__` for one dataset: delete if the
size vector is all zero, resize if it differs from the declared shape,
otherwise leave the dataset untouched. -/
inductive TrimAction where
  | delete
  | resize (newShape : List Int)
  | keep
deriving DecidableEq

def trimAction (size shape : List Int) : TrimAction :=
  if size.all (fun z => z == 0) then .delete
  else if size = shape then .keep
  else .resize size

/-- The store call the trim decision issues for one dataset, if any. -/
def trimOp (name : String) (sp : DSpec) : Option StoreOp :=
  match trimAction sp.size sp.shape with
  | .delete => some (.deleteDataset name)
  | .resize s => some (.resizeDataset name s)
  | .keep => none

/-- The trimming loop of `DataSaver.__exit__`.  `failList` is the store
oracle: the datasets whose resize/delete call raises.  The source has no
try/except around the loop, so a raise aborts it at that dataset and
propagates out of `__exit__`. -/
def trim_loop (failList : List String) :
    List (String × DSpec) → List StoreOp × Option DataSavingError
  | [] => ([], none)
  | (n, sp) :: rest =>
    match trimOp n sp with
    | none => trim_loop failList rest
    | some op =>
      if failList.contains n then ([], some .trimFailed)
      else
        let r := trim_loop failList rest
        (op :: r.1, r.2)

/-- `DataSaver.__exit__`.  The exception information passed by the Python
runtime (`exc_type` etc., abstracted to `exc`) is ignored by the source, so
the result never depends on it.  If a trim call raises, the raise propagates
immediately: the file is not closed and `_lock` is not set on that path. -/
def dsExit (failList : List String) (st : SState) (exc : Option Unit) : CallResult :=
  match exc with
  | _ =>
    let r := trim_loop failList st.dataspec
    match r.2 with
    | some e => ⟨st, r.1, some e⟩
    | none => ⟨⟨true, false, st.dataspec⟩, r.1 ++ [.closeFile], none⟩

/-!
Metadata model.  A metadata value is a Python value from the universe the
source's `_parse_attribute` dispatches on: numbers (here `int`; Python's
`bool` is a subclass of `int` and hence also a `numbers.Number`), strings,
numpy arrays (opaque), `None`, ordered sequences (list/tuple) and dicts.
Python sets are omitted: `list(set)` materializes in an unspecified order, so
their coercion result is not a function of the value.  `empty` is the
`h5py.Empty` marker produced for `None`.
-/

inductive PyVal where
  | int (n : Int)
  | bool (b : Bool)
  | str (s : String)
  | arr (id : Nat)
  | none_
  | empty
  | list (vs : List PyVal)
  | tup (vs : List PyVal)
  | dict (kvs : List (String × PyVal))

/-- The Python runtime type of a value, as `type(v)` sees it. -/
inductive PyType where
  | tInt
  | tBool
  | tStr
  | tArr
  | tNone
  | tEmpty
  | tList
  | tTuple
  | tDict
deriving DecidableEq

def typeOf : PyVal → PyType
  | .int _ => .tInt
  | .bool _ => .tBool
  | .str _ => .tStr
  | .arr _ => .tArr
  | .none_ => .tNone
  | .empty => .tEmpty
  | .list _ => .tList
  | .tup _ => .tTuple
  | .dict _ => .tDict

/-- Python `isinstance` over this universe: `bool` is a subclass of `int`,
everything else matches exactly. -/
def isinst (v : PyVal) : PyType → Bool
  | .tInt => match v with | .int _ => true | .bool _ => true | _ => false
  | t => typeOf v == t

/-- `isinstance(v, numbers.Number)` over this universe (ints and bools). -/
def isNumber : PyVal → Bool
  | .int _ => true
  | .bool _ => true
  | _ => false

/-- The dict comprehension `{str(idx): item for idx, item in enumerate(value)}`,
with the running position made explicit. -/
def enumFrom (i : Nat) : List PyVal → List (String × PyVal)
  | [] => []
  | v :: vs => (toString i, v) :: enumFrom (i + 1) vs

/-- The source's `is_same_type` check: every later element is an instance of
the first element's type. -/
def sameTypeAll (vs : List PyVal) : Bool :=
  match vs with
  | [] => true
  | x :: rest => rest.all (fun it => isinst it (typeOf x))

/-- `DataSaver._parse_attribute`. -/
def parse_attribute (v : PyVal) : PyVal :=
  match v with
  | .int _ => v
  | .bool _ => v
  | .str _ => v
  | .arr _ => v
  | .dict _ => v
  | .list vs => parseSeq vs
  | .tup vs => parseSeq vs
  | .none_ => .empty
  | .empty => .empty
where
  /-- The `(list, tuple, set, frozenset)` branch, after `value = list(value)`. -/
  parseSeq (l : List PyVal) : PyVal :=
    match l with
    | [] => .list []
    | [x] => x
    | x :: y :: rest =>
      if (x :: y :: rest).all isNumber || sameTypeAll (x :: y :: rest) then
        .list (x :: y :: rest)
      else .dict (enumFrom 0 (x :: y :: rest))

/-- The attribute tree written into the store by `_save_metadata`: a leaf
attribute value or a child group. -/
inductive MetaNode where
  | attr (v : PyVal)
  | group (entries : List (String × MetaNode))

mutual

/-- Size measure for the termination of `saveMeta` (one unit per constructor
and per sequence/mapping entry). -/
def psize : PyVal → Nat
  | .list vs => 1 + psizeL vs
  | .tup vs => 1 + psizeL vs
  | .dict kvs => 1 + psizeK kvs
  | .int _ => 1
  | .bool _ => 1
  | .str _ => 1
  | .arr _ => 1
  | .none_ => 1
  | .empty => 1

def psizeL : List PyVal → Nat
  | [] => 0
  | v :: vs => 1 + psize v + psizeL vs

def psizeK : List (String × PyVal) → Nat
  | [] => 0
  | kv :: kvs => 1 + psize kv.2 + psizeK kvs

end

theorem psizeK_enumFrom (i : Nat) (vs : List PyVal) :
    psizeK (enumFrom i vs) = psizeL vs := by
  induction vs generalizing i with
  | nil => rfl
  | cons v vs ih => simp [enumFrom, psizeK, psizeL, ih]

/-- Whenever `_parse_attribute` hands back a dict (to be recursed on), the
total size of that dict's entries is strictly below the size of the value. -/
theorem psizeK_parse_lt {v : PyVal} {kvs : List (String × PyVal)}
    (h : parse_attribute v = .dict kvs) : psizeK kvs < psize v := by
  cases v with
  | dict kvs' =>
    simp [parse_attribute] at h
    subst h
    simp [psize]
  | list vs =>
    cases vs with
    | nil => simp [parse_attribute, parse_attribute.parseSeq] at h
    | cons x rest =>
      cases rest with
      | nil =>
        simp [parse_attribute, parse_attribute.parseSeq] at h
        subst h
        have : psizeK kvs < psize (PyVal.dict kvs) := by simp [psize]
        calc psizeK kvs < psize (PyVal.dict kvs) := this
          _ ≤ psize (PyVal.list [PyVal.dict kvs]) := by simp [psize, psizeL]; omega
      | cons y rest' =>
        simp only [parse_attribute, parse_attribute.parseSeq] at h
        split at h
        · simp at h
        · injection h with h2
          rw [← h2, psizeK_enumFrom]
          simp [psize]
  | tup vs =>
    cases vs with
    | nil => simp [parse_attribute, parse_attribute.parseSeq] at h
    | cons x rest =>
      cases rest with
      | nil =>
        simp [parse_attribute, parse_attribute.parseSeq] at h
        subst h
        have : psizeK kvs < psize (PyVal.dict kvs) := by simp [psize]
        calc psizeK kvs < psize (PyVal.dict kvs) := this
          _ ≤ psize (PyVal.tup [PyVal.dict kvs]) := by simp [psize, psizeL]; omega
      | cons y rest' =>
        simp only [parse_attribute, parse_attribute.parseSeq] at h
        split at h
        · simp at h
        · injection h with h2
          rw [← h2, psizeK_enumFrom]
          simp [psize]
  | int n => simp [parse_attribute] at h
  | bool b => simp [parse_attribute] at h
  | str s => simp [parse_attribute] at h
  | arr a => simp [parse_attribute] at h
  | none_ => simp [parse_attribute] at h
  | empty => simp [parse_attribute] at h

/-- `DataSaver._save_metadata`: each value is parsed; a resulting dict
becomes a child group written recursively, anything else becomes a leaf
attribute on the current group. -/
def saveMeta : List (String × PyVal) → List (String × MetaNode)
  | [] => []
  | (k, v) :: rest =>
    match h : parse_attribute v with
    | .dict kvs => (k, .group (saveMeta kvs)) :: saveMeta rest
    | p => (k, .attr p) :: saveMeta rest
termination_by kvs => psizeK kvs
decreasing_by
  all_goals simp [psizeK]
  all_goals (have hlt := psizeK_parse_lt h; omega)

/-! ### Helper lemmas about the extent-tracking loop -/

theorem track_loop_length (s z : List Int) (its : List IndexItem) :
    (track_loop s z its).length = z.length := by
  induction s generalizing z its with
  | nil => cases its <;> cases z <;> rfl
  | cons a as ih =>
    cases z with
    | nil => cases its <;> rfl
    | cons b bs =>
      cases its with
      | nil => rfl
      | cons it its' => simp [track_loop, ih]

theorem track_loop_getD (s : List Int) : ∀ (z : List Int) (its : List IndexItem) (i : Nat),
    z.length = s.length → i < z.length →
    (track_loop s z its).getD i 0 =
      if i < its.length
      then track_item (s.getD i 0) (z.getD i 0) (its.getD i (IndexItem.int 0))
      else z.getD i 0 := by
  induction s with
  | nil =>
    intro z its i hz hi
    have : z.length = 0 := by simpa using hz
    omega
  | cons a as ih =>
    intro z its i hz hi
    cases z with
    | nil => simp at hi
    | cons b bs =>
      cases its with
      | nil => simp [track_loop]
      | cons it its' =>
        cases i with
        | zero => simp [track_loop]
        | succ j =>
          have hz' : bs.length = as.length := by simpa using hz
          have hj : j < bs.length := by simp at hi; omega
          simp only [track_loop, List.getD_cons_succ]
          rw [ih bs its' j hz' hj]
          simp [Nat.succ_lt_succ_iff]

/-- C1: for every write call on a tracked dataset, `_track_size` updates the
extent vector exactly by the claimed rule: the single wildcard token sets it
to the full declared shape; otherwise, per axis, a range entry with an
unspecified upper bound sets the declared shape on that axis, a bounded
range takes the max of the previous value and the range's upper bound, and
an integer position takes the max of the previous value and that position. -/
theorem extent_update_rule (shape size : List Int) (items : List IndexItem)
    (hz : size.length = shape.length) (hn : items.length = shape.length) :
    track_size shape size Index.ellipsis = shape ∧
    ∀ i, i < items.length →
      (track_size shape size (Index.tup items)).getD i 0 =
        (match items.getD i (IndexItem.int 0) with
         | IndexItem.slice _ none _ => shape.getD i 0
         | IndexItem.slice _ (some stop) _ => max (size.getD i 0) stop
         | IndexItem.int p => max (size.getD i 0) p) := by
  refine ⟨rfl, ?_⟩
  intro i hi
  have hiz : i < size.length := by omega
  rw [show track_size shape size (Index.tup items) = track_loop shape size items from rfl]
  rw [track_loop_getD shape size items i hz hiz]
  rw [if_pos hi]
  cases h : items.getD i (IndexItem.int 0) with
  | slice a b c => cases b <;> rfl
  | int p => rfl

/-- Witness for C1 at the spec's scenario: declared shape (3,5), a write at
index (slice(0,2), slice(None)) drives axis 0 to max(0,2) = 2. -/
theorem extent_update_rule_witness :
    (track_size [3, 5] [0, 0] (Index.tup
      [IndexItem.slice (some 0) (some 2) none,
        IndexItem.slice none none none])).getD 0 0 = max 0 2 := by
  have h := (extent_update_rule [3, 5] [0, 0]
    [IndexItem.slice (some 0) (some 2) none, IndexItem.slice none none none]
    (by decide) (by decide)).2 0 (by decide)
  simpa using h

/-! ### Monotonicity of the tracked extent -/

/-- Spec-side predicate: one index entry stays within the declared shape on
its axis (a bounded stop or an integer position does not exceed the bound). -/
def itemBounded (bound : Int) : IndexItem → Bool
  | .slice _ none _ => true
  | .slice _ (some stop) _ => decide (stop ≤ bound)
  | .int p => decide (p ≤ bound)

def boundedLoop : List Int → List IndexItem → Bool
  | _, [] => true
  | s :: ss, it :: its => itemBounded s it && boundedLoop ss its
  | [], _ :: _ => true

/-- Spec-side predicate: every entry of an index is within the declared shape. -/
def indexBounded (shape : List Int) : Index → Bool
  | .ellipsis => true
  | .nonTuple => true
  | .tup items => boundedLoop shape items

theorem boundedLoop_getD (s : List Int) : ∀ (its : List IndexItem) (i : Nat),
    boundedLoop s its = true → i < its.length → i < s.length →
    itemBounded (s.getD i 0) (its.getD i (IndexItem.int 0)) = true := by
  induction s with
  | nil => intro its i hb hi hs; simp at hs
  | cons a as ih =>
    intro its i hb hi hs
    cases its with
    | nil => simp at hi
    | cons it its' =>
      cases i with
      | zero => simp [boundedLoop] at hb; simpa using hb.1
      | succ j =>
        simp [boundedLoop] at hb
        have := ih its' j hb.2 (by simp at hi; omega) (by simp at hs; omega)
        simpa using this

/-- C9 counterexample: with declared shape (5,), a successful hyperslab write
at index (slice(0,7),) (h5py clips such a selection, so the delegated store
write can succeed) drives the tracked extent of axis 0 to 7; a later
successful full write with the wildcard index resets it to the declared
shape 5, strictly lowering the value the previous call established. -/
theorem extent_monotone_counterexample :
    let st1 := (dsEnter ⟨false, false,
      [("z", ⟨[5], Chunks.bool true, none, none, none, []⟩)]⟩).st
    let r1 := save_data true st1 "z"
      (Index.tup [IndexItem.slice (some 0) (some 7) none])
    let r2 := save_data true r1.st "z" Index.ellipsis
    r1.err = none ∧ r2.err = none ∧
    (lookupSpec r1.st.dataspec "z").map DSpec.size = some [7] ∧
    (lookupSpec r2.st.dataspec "z").map DSpec.size = some [5] ∧
    (5 : Int) < 7 := by
  decide

/-- C9 amended: provided every bounded range stop and integer position of the
index is at most the declared shape on its axis (true of every in-bounds
index), and the current extent vector is within the declared shape, a write
never lowers any axis's tracked value, and the vector stays within the
declared shape (so the property holds inductively across every sequence of
successful writes with in-bounds indices). -/
theorem extent_monotone_amended (shape size : List Int) (idx : Index)
    (hz : size.length = shape.length)
    (hinv : ∀ i, i < size.length → size.getD i 0 ≤ shape.getD i 0)
    (hb : indexBounded shape idx = true) :
    (∀ i, i < size.length →
      size.getD i 0 ≤ (track_size shape size idx).getD i 0 ∧
      (track_size shape size idx).getD i 0 ≤ shape.getD i 0) ∧
    (track_size shape size idx).length = size.length := by
  cases idx with
  | ellipsis =>
    refine ⟨?_, by simpa using hz.symm⟩
    intro i hi
    exact ⟨hinv i hi, le_refl _⟩
  | nonTuple =>
    refine ⟨?_, rfl⟩
    intro i hi
    exact ⟨le_refl _, hinv i hi⟩
  | tup items =>
    constructor
    · intro i hi
      rw [show track_size shape size (Index.tup items) = track_loop shape size items
            from rfl,
          track_loop_getD shape size items i hz hi]
      by_cases hlt : i < items.length
      · rw [if_pos hlt]
        have hbi : itemBounded (shape.getD i 0) (items.getD i (IndexItem.int 0)) = true :=
          boundedLoop_getD shape items i (by simpa [indexBounded] using hb) hlt (by omega)
        cases h : items.getD i (IndexItem.int 0) with
        | slice a b c =>
          cases b with
          | none => exact ⟨hinv i hi, le_refl _⟩
          | some stop =>
            rw [h] at hbi
            simp only [itemBounded, decide_eq_true_eq] at hbi
            exact ⟨le_max_left _ _, max_le (hinv i hi) hbi⟩
        | int p =>
          rw [h] at hbi
          simp only [itemBounded, decide_eq_true_eq] at hbi
          exact ⟨le_max_left _ _, max_le (hinv i hi) hbi⟩
      · rw [if_neg hlt]
        exact ⟨le_refl _, hinv i hi⟩
    · exact track_loop_length shape size items

/-- Witness for the amended C9 at a concrete in-bounds write. -/
theorem extent_monotone_amended_witness :
    (0 : Int) ≤ (track_size [5] [0]
        (Index.tup [IndexItem.slice none (some 3) none])).getD 0 0 ∧
    (track_size [5] [0]
        (Index.tup [IndexItem.slice none (some 3) none])).getD 0 0 ≤ 5 := by
  have h := (extent_monotone_amended [5] [0]
    (Index.tup [IndexItem.slice none (some 3) none]) (by decide)
    (by intro i hi
        have : i = 0 := by simp at hi; omega
        subst this
        decide)
    (by decide)).1 0 (by decide)
  simpa using h

/-! ### C10: integer-position writes do not advance the extent past the position -/

theorem replicate_zero_all (n : Nat) :
    (List.replicate n (0 : Int)).all (fun z => z == 0) = true := by
  induction n with
  | zero => rfl
  | succ m ih => simpa [List.replicate] using ih

/-- C10: a write whose index tuple is integer position 0 on every axis leaves
the all-zero extent vector all zero (the integer rule records
max(previous, position), not position + 1), so at session exit the dataset is
classified as never written and the trim pass deletes it from the store even
though it was actually written. -/
theorem written_at_zero_deleted (shape : List Int) (name : String)
    (lock fo : Bool) (e : Option Unit) :
    track_size shape (List.replicate shape.length 0)
        (Index.tup (List.replicate shape.length (IndexItem.int 0)))
      = List.replicate shape.length 0 ∧
    trimAction (List.replicate shape.length 0) shape = TrimAction.delete ∧
    (dsExit [] ⟨lock, fo,
        [(name, ⟨shape, Chunks.bool true, none, none, none,
          List.replicate shape.length 0⟩)]⟩ e).ops
      = [StoreOp.deleteDataset name, StoreOp.closeFile] := by
  refine ⟨?_, ?_, ?_⟩
  · show track_loop shape (List.replicate shape.length 0)
      (List.replicate shape.length (IndexItem.int 0)) = _
    induction shape with
    | nil => rfl
    | cons a as ih => simpa [List.replicate, track_loop, track_item] using ih
  · simp [trimAction, replicate_zero_all]
  · simp [dsExit, trim_loop, trimOp, trimAction, replicate_zero_all]

/-! ### The exit trim pass -/

/-- Whether a store call is the trim (delete/resize) of the named dataset. -/
def isTrimOpFor (n : String) : StoreOp → Bool
  | .deleteDataset m => m == n
  | .resizeDataset m _ => m == n
  | _ => false

theorem trimOp_some {m : String} {sp : DSpec} {op : StoreOp}
    (h : trimOp m sp = some op) (n : String) : isTrimOpFor n op = (m == n) := by
  unfold trimOp at h
  cases ht : trimAction sp.size sp.shape with
  | delete => rw [ht] at h; injection h with h2; rw [← h2]; rfl
  | resize s => rw [ht] at h; injection h with h2; rw [← h2]; rfl
  | keep => rw [ht] at h; cases h

theorem trimOp_toList (n : String) (sp : DSpec) :
    (trimOp n sp).toList =
      if sp.size.all (fun z => z == 0) then [StoreOp.deleteDataset n]
      else if sp.size = sp.shape then []
      else [StoreOp.resizeDataset n sp.size] := by
  unfold trimOp trimAction
  by_cases h1 : sp.size.all (fun z => z == 0) = true
  · rw [if_pos h1, if_pos h1]; rfl
  · rw [if_neg h1, if_neg h1]
    by_cases h2 : sp.size = sp.shape
    · rw [if_pos h2, if_pos h2]; rfl
    · rw [if_neg h2, if_neg h2]; rfl

/-- With no store failure, the trim loop visits every dataset and raises
nothing. -/
theorem trim_loop_nofail (specs : List (String × DSpec)) :
    trim_loop [] specs = (specs.filterMap (fun p => trimOp p.1 p.2), none) := by
  induction specs with
  | nil => rfl
  | cons p rest ih =>
    obtain ⟨n, sp⟩ := p
    cases h : trimOp n sp with
    | none => simp [trim_loop, h, ih, List.filterMap_cons]
    | some op => simp [trim_loop, h, ih, List.filterMap_cons]

theorem filter_trim_not_mem (n : String) (specs : List (String × DSpec))
    (h : ∀ p ∈ specs, p.1 ≠ n) :
    (specs.filterMap (fun p => trimOp p.1 p.2)).filter (isTrimOpFor n) = [] := by
  induction specs with
  | nil => rfl
  | cons p rest ih =>
    have hp : p.1 ≠ n := h p (by simp)
    have hr := ih (fun q hq => h q (by simp [hq]))
    cases ht : trimOp p.1 p.2 with
    | none => simpa [List.filterMap_cons, ht] using hr
    | some op =>
      have hop := trimOp_some ht n
      have : isTrimOpFor n op = false := by
        rw [hop]; exact beq_eq_false_iff_ne.mpr hp
      simp [List.filterMap_cons, ht, List.filter_cons, this, hr]

theorem filter_trim_mem (n : String) (sp : DSpec) (specs : List (String × DSpec))
    (hmem : (n, sp) ∈ specs) (hnd : (specs.map Prod.fst).Nodup) :
    (specs.filterMap (fun p => trimOp p.1 p.2)).filter (isTrimOpFor n) =
      (trimOp n sp).toList := by
  induction specs with
  | nil => simp at hmem
  | cons p rest ih =>
    simp only [List.map_cons, List.nodup_cons] at hnd
    rcases List.mem_cons.mp hmem with heq | hmem'
    · subst heq
      have hrest : ∀ q ∈ rest, q.1 ≠ n := by
        intro q hq hqn
        apply hnd.1
        show n ∈ rest.map Prod.fst
        rw [← hqn]
        exact List.mem_map_of_mem Prod.fst hq
      cases ht : trimOp n sp with
      | none =>
        simp [List.filterMap_cons, ht, filter_trim_not_mem n rest hrest]
      | some op =>
        have hop : isTrimOpFor n op = true := by
          rw [trimOp_some ht n]; exact beq_self_eq_true n
        simp [List.filterMap_cons, ht, List.filter_cons, hop,
          filter_trim_not_mem n rest hrest]
    · have hpn : p.1 ≠ n := by
        intro hh
        apply hnd.1
        rw [hh]
        simpa using List.mem_map_of_mem Prod.fst hmem'
      have hr := ih hmem' hnd.2
      cases ht : trimOp p.1 p.2 with
      | none => simpa [List.filterMap_cons, ht] using hr
      | some op =>
        have : isTrimOpFor n op = false := by
          rw [trimOp_some ht n]; exact beq_eq_false_iff_ne.mpr hpn
        simp [List.filterMap_cons, ht, List.filter_cons, this, hr]

/-- C2: at session exit, with the store's resize/delete calls succeeding, for
every tracked dataset exactly one of three actions is taken, decided by its
final extent vector: all-zero → the dataset is deleted from the store;
different from the declared shape → resized down to the vector; equal to the
declared shape → no store call touches it.  `__exit__` ignores the exception
information the runtime passes in, so the same trim pass runs on exits caused
by an exception raised from caller code during the session. -/
theorem exit_trim_trichotomy (st : SState) (e : Option Unit)
    (hnd : (st.dataspec.map Prod.fst).Nodup) :
    (∀ e', dsExit [] st e' = dsExit [] st e) ∧
    (dsExit [] st e).err = none ∧
    StoreOp.closeFile ∈ (dsExit [] st e).ops ∧
    (∀ n sp, (n, sp) ∈ st.dataspec →
      (dsExit [] st e).ops.filter (isTrimOpFor n) =
        if sp.size.all (fun z => z == 0) then [StoreOp.deleteDataset n]
        else if sp.size = sp.shape then []
        else [StoreOp.resizeDataset n sp.size]) := by
  refine ⟨fun e' => rfl, ?_, ?_, ?_⟩
  · simp [dsExit, trim_loop_nofail]
  · simp [dsExit, trim_loop_nofail]
  · intro n sp hmem
    rw [show (dsExit [] st e).ops =
        (st.dataspec.filterMap (fun p => trimOp p.1 p.2)) ++ [StoreOp.closeFile] by
      simp [dsExit, trim_loop_nofail]]
    rw [List.filter_append, filter_trim_mem n sp st.dataspec hmem hnd, trimOp_toList]
    simp [isTrimOpFor]

/-- Witness for C2: a three-dataset state exercising the delete arm. -/
theorem exit_trim_trichotomy_witness :
    ((dsExit [] ⟨false, true,
        [("a", ⟨[3, 5], Chunks.bool true, none, none, none, [0, 0]⟩),
         ("b", ⟨[2, 4], Chunks.bool true, none, none, none, [2, 4]⟩),
         ("c", ⟨[3, 5], Chunks.bool true, none, none, none, [1, 5]⟩)]⟩ none).ops.filter
      (isTrimOpFor "a")) = [StoreOp.deleteDataset "a"] := by
  have h := (exit_trim_trichotomy ⟨false, true,
      [("a", ⟨[3, 5], Chunks.bool true, none, none, none, [0, 0]⟩),
       ("b", ⟨[2, 4], Chunks.bool true, none, none, none, [2, 4]⟩),
       ("c", ⟨[3, 5], Chunks.bool true, none, none, none, [1, 5]⟩)]⟩ none
      (by decide)).2.2.2 "a" ⟨[3, 5], Chunks.bool true, none, none, none, [0, 0]⟩
      (by decide)
  simpa using h

/-- C6 counterexample: dataset "a" (never written, to be deleted) is listed
before "b" (written up to 1 of 2, to be resized); the store's delete of "a"
raises.  The raise propagates out of the trim loop: "b" is not resized, the
file is not closed, and the session is not locked. -/
theorem exit_failure_counterexample :
    let st : SState := ⟨false, true,
      [("a", ⟨[2], Chunks.bool true, none, none, none, [0]⟩),
       ("b", ⟨[2], Chunks.bool true, none, none, none, [1]⟩)]⟩
    (dsExit ["a"] st none).err = some DataSavingError.trimFailed ∧
    (dsExit ["a"] st none).ops = [] ∧
    (dsExit ["a"] st none).st.lock = false ∧
    (dsExit ["a"] st none).st.fileOpen = true := by
  decide

theorem trim_loop_abort (n : String) (sp : DSpec) (post : List (String × DSpec))
    (hact : trimOp n sp ≠ none) :
    ∀ pre : List (String × DSpec), (∀ p ∈ pre, p.1 ≠ n) →
    trim_loop [n] (pre ++ (n, sp) :: post) =
      (pre.filterMap (fun p => trimOp p.1 p.2), some DataSavingError.trimFailed) := by
  intro pre
  induction pre with
  | nil =>
    intro _
    cases ht : trimOp n sp with
    | none => exact absurd ht hact
    | some op => simp [trim_loop, ht]
  | cons p rest ih =>
    intro hp
    have hpn : p.1 ≠ n := hp p (by simp)
    have hr := ih (fun q hq => hp q (by simp [hq]))
    cases ht : trimOp p.1 p.2 with
    | none => simp [trim_loop, ht, List.filterMap_cons, hr]
    | some op => simp [trim_loop, ht, List.filterMap_cons, hr, hpn]

/-- C6 amended: if the store's resize/delete call for one dataset raises
during the exit trim pass, the raise propagates to the caller immediately:
datasets after the failing one in declaration order are not trimmed, the
file is not closed, and the session is not locked on that exit path (the
source has no try/finally around the loop). -/
theorem exit_abort_on_trim_failure (pre post : List (String × DSpec))
    (n : String) (sp : DSpec) (lock fo : Bool) (e : Option Unit)
    (hpre : ∀ p ∈ pre, p.1 ≠ n)
    (hact : trimOp n sp ≠ none) :
    dsExit [n] ⟨lock, fo, pre ++ (n, sp) :: post⟩ e =
      ⟨⟨lock, fo, pre ++ (n, sp) :: post⟩,
        pre.filterMap (fun p => trimOp p.1 p.2), some DataSavingError.trimFailed⟩ := by
  simp [dsExit, trim_loop_abort n sp post hact pre hpre]

/-- Witness for the amended C6: "a" is resized before the failing delete of
"b"; "c" is never reached. -/
theorem exit_abort_on_trim_failure_witness :
    dsExit ["b"] ⟨false, true,
        [("a", ⟨[2], Chunks.bool true, none, none, none, [1]⟩),
         ("b", ⟨[2], Chunks.bool true, none, none, none, [0]⟩),
         ("c", ⟨[2], Chunks.bool true, none, none, none, [1]⟩)]⟩ none =
      ⟨⟨false, true,
        [("a", ⟨[2], Chunks.bool true, none, none, none, [1]⟩),
         ("b", ⟨[2], Chunks.bool true, none, none, none, [0]⟩),
         ("c", ⟨[2], Chunks.bool true, none, none, none, [1]⟩)]⟩,
        [StoreOp.resizeDataset "a" [1]], some DataSavingError.trimFailed⟩ := by
  have h := exit_abort_on_trim_failure
    [("a", ⟨[2], Chunks.bool true, none, none, none, [1]⟩)]
    [("c", ⟨[2], Chunks.bool true, none, none, none, [1]⟩)]
    "b" ⟨[2], Chunks.bool true, none, none, none, [0]⟩ false true none
    (by decide) (by decide)
  simpa using h

/-! ### Session locking -/

/-- The public operations of the manager, for quantifying over everything
that could touch the lock.  Metadata writing reads the open handle but never
writes the `_lock` or `_file` fields. -/
inductive SaverOp where
  | enterOp
  | exitOp (failList : List String) (exc : Option Unit)
  | saveDataOp (writeOk : Bool) (name : String) (index : Index)
  | metadataOp

def applyOp : SaverOp → SState → SState
  | .enterOp, st => (dsEnter st).st
  | .exitOp fl e, st => (dsExit fl st e).st
  | .saveDataOp w n i, st => (save_data w st n i).st
  | .metadataOp, st => st

/-- C4: a completed (non-raising) `__exit__` always sets the lock; `__enter__`
on a locked manager raises `DataSavingError` (the session error) with no
store call and no state change; and no operation of the manager ever clears
the lock, so the failure is irreversible. -/
theorem session_lock_permanent :
    (∀ (st : SState) (fl : List String) (e : Option Unit),
      (dsExit fl st e).err = none → (dsExit fl st e).st.lock = true) ∧
    (∀ st : SState, st.lock = true →
      dsEnter st = ⟨st, [], some DataSavingError.sessionLocked⟩) ∧
    (∀ (op : SaverOp) (st : SState), st.lock = true → (applyOp op st).lock = true) := by
  refine ⟨?_, ?_, ?_⟩
  · intro st fl e h
    cases hr : (trim_loop fl st.dataspec).2 with
    | some e' => simp [dsExit, hr] at h
    | none => simp [dsExit, hr]
  · intro st h
    simp [dsEnter, h]
  · intro op st h
    cases op with
    | enterOp => simp [applyOp, dsEnter, h]
    | exitOp fl e =>
      simp only [applyOp]
      cases hr : (trim_loop fl st.dataspec).2 with
      | some e' => simp [dsExit, hr, h]
      | none => simp [dsExit, hr]
    | saveDataOp w n i =>
      simp only [applyOp]
      by_cases hf : st.fileOpen = false
      · simp [save_data, hf, h]
      · cases hl : lookupSpec st.dataspec n with
        | none => simp [save_data, hf, hl, h]
        | some sp =>
          cases hv : validate_index sp.shape.length i with
          | some e' => simp [save_data, hf, hl, hv, h]
          | none => cases w <;> simp [save_data, hf, hl, hv, h]
    | metadataOp => simpa [applyOp] using h

/-- Witness for C4 at a concrete locked state. -/
theorem session_lock_permanent_witness :
    dsEnter ⟨true, false, []⟩ =
      ⟨⟨true, false, []⟩, [], some DataSavingError.sessionLocked⟩ :=
  session_lock_permanent.2.1 ⟨true, false, []⟩ rfl

/-! ### Raise conditions of save_data -/

/-- C5: `save_data` raises exactly in the claimed situations — no active
session, a dataset not in the schema, an index that is neither the wildcard
token nor a tuple, an index tuple whose length differs from the dataset's
axis count, or a failing store write — and every raising call leaves the
state (in particular every extent vector) unchanged and performs no store
call. -/
theorem save_data_raise_conditions (st : SState) (w : Bool) (n : String) (idx : Index) :
    (st.fileOpen = false →
      save_data w st n idx = ⟨st, [], some DataSavingError.sessionClosed⟩) ∧
    (st.fileOpen = true → lookupSpec st.dataspec n = none →
      save_data w st n idx = ⟨st, [], some DataSavingError.unknownDataset⟩) ∧
    (∀ sp, st.fileOpen = true → lookupSpec st.dataspec n = some sp →
      (idx = Index.nonTuple →
        save_data w st n idx = ⟨st, [], some DataSavingError.indexTypeError⟩) ∧
      (∀ items, idx = Index.tup items → sp.shape.length ≠ items.length →
        save_data w st n idx = ⟨st, [], some DataSavingError.rankMismatch⟩) ∧
      (validate_index sp.shape.length idx = none → w = false →
        save_data w st n idx = ⟨st, [], some DataSavingError.storeWriteFailed⟩)) ∧
    ((save_data w st n idx).err.isSome = true →
      (save_data w st n idx).st = st ∧ (save_data w st n idx).ops = []) := by
  refine ⟨?_, ?_, ?_, ?_⟩
  · intro h; simp [save_data, h]
  · intro h hl; simp [save_data, h, hl]
  · intro sp h hl
    refine ⟨?_, ?_, ?_⟩
    · intro hi; subst hi; simp [save_data, h, hl, validate_index]
    · intro items hi hlen; subst hi; simp [save_data, h, hl, validate_index, hlen]
    · intro hv hw; subst hw; simp [save_data, h, hl, hv]
  · intro h
    by_cases hf : st.fileOpen = false
    · simp [save_data, hf]
    · cases hl : lookupSpec st.dataspec n with
      | none => simp [save_data, hf, hl]
      | some sp =>
        cases hv : validate_index sp.shape.length idx with
        | some e' => simp [save_data, hf, hl, hv]
        | none =>
          cases w with
          | true => simp [save_data, hf, hl, hv] at h
          | false => simp [save_data, hf, hl, hv]

/-- Witness for C5: a write with no active session raises the session error. -/
theorem save_data_raise_conditions_witness :
    save_data true ⟨false, false, []⟩ "z" Index.ellipsis
      = ⟨⟨false, false, []⟩, [], some DataSavingError.sessionClosed⟩ :=
  (save_data_raise_conditions ⟨false, false, []⟩ true "z" Index.ellipsis).1 rfl

/-! ### Coordinate resolution and dataset creation order -/

/-- The dataset name a store call creates, if it is a creation call. -/
def createdName : StoreOp → Option String
  | .createDataset n _ _ _ _ _ => some n
  | _ => none

theorem contains_iff (l : List String) (a : String) : l.contains a = true ↔ a ∈ l :=
  List.elem_iff

theorem dim_ops_no_create (name : String) (coords : List String) :
    ∀ (i : Nat) (ls : List String),
      (dim_ops name coords i ls).filterMap createdName = [] := by
  intro i ls
  induction ls generalizing i with
  | nil => rfl
  | cons l ls ih =>
    by_cases hc : coords.contains l
    · simp [dim_ops, hc, createdName, List.filterMap_cons, List.filterMap_append, ih]
    · simp [dim_ops, hc, createdName, List.filterMap_cons, ih]

theorem mem_dim_ops {name : String} {coords : List String} {op : StoreOp} :
    ∀ {i : Nat} {ls : List String}, op ∈ dim_ops name coords i ls →
      (∃ j lb, op = .setLabel name j lb ∧ lb ∈ ls) ∨
      (∃ j lb, op = .attachScale name j lb ∧ lb ∈ ls ∧ coords.contains lb = true) := by
  intro i ls
  induction ls generalizing i with
  | nil => intro h; simp [dim_ops] at h
  | cons l ls ih =>
    intro h
    simp only [dim_ops, List.mem_cons, List.mem_append] at h
    rcases h with h | h | h
    · exact Or.inl ⟨i, l, h, by simp⟩
    · by_cases hc : coords.contains l
      · rw [if_pos hc] at h
        exact Or.inr ⟨i, l, by simpa using h, by simp, hc⟩
      · rw [if_neg hc] at h
        simp at h
    · rcases ih h with ⟨j, lb, he, hm⟩ | ⟨j, lb, he, hm, hc⟩
      · exact Or.inl ⟨j, lb, he, by simp [hm]⟩
      · exact Or.inr ⟨j, lb, he, by simp [hm], hc⟩

theorem dim_ops_pos (name : String) (coords : List String) :
    ∀ (ls : List String) (i j : Nat), j < ls.length →
      StoreOp.setLabel name (i + j) (ls.getD j "") ∈ dim_ops name coords i ls ∧
      (coords.contains (ls.getD j "") = true →
        StoreOp.attachScale name (i + j) (ls.getD j "") ∈ dim_ops name coords i ls) := by
  intro ls
  induction ls with
  | nil => intro i j hj; simp at hj
  | cons l ls ih =>
    intro i j hj
    cases j with
    | zero =>
      refine ⟨by simp [dim_ops], ?_⟩
      intro hc
      simp only [List.getD_cons_zero] at hc
      have hm : l ∈ coords := (contains_iff _ _).1 hc
      simp [dim_ops, hm]
    | succ j' =>
      have hj' : j' < ls.length := by simp at hj; omega
      have h := ih (i + 1) j' hj'
      have harith : i + (j' + 1) = (i + 1) + j' := by omega
      constructor
      · rw [harith]
        simp only [List.getD_cons_succ]
        exact List.mem_cons_of_mem _ (List.mem_append_right _ h.1)
      · intro hc
        rw [harith]
        simp only [List.getD_cons_succ] at hc ⊢
        exact List.mem_cons_of_mem _ (List.mem_append_right _ (h.2 hc))

theorem coordOps_names (coords : List String) (L : List (String × DSpec)) :
    ((L.filterMap (fun p =>
        if coords.contains p.1 then
          some (create_dataset_args p.1 p.2.shape p.2.chunks p.2.dtype p.2.units)
        else none)).filterMap createdName)
      = (L.map Prod.fst).filter (fun nm => coords.contains nm) := by
  induction L with
  | nil => rfl
  | cons p rest ih =>
    by_cases hc : p.1 ∈ coords
    · simp only [List.filterMap_cons, List.map_cons, List.filter_cons]
      simp [hc, createdName, create_dataset_args] at ih ⊢
      exact ih
    · simp only [List.filterMap_cons, List.map_cons, List.filter_cons]
      simp [hc] at ih ⊢
      exact ih

theorem dataOps_names (coords : List String) (L : List (String × DSpec)) :
    ((L.flatMap (fun p =>
        if coords.contains p.1 then []
        else
          create_dataset_args p.1 p.2.shape p.2.chunks p.2.dtype p.2.units ::
            (match p.2.dims with
             | none => []
             | some ds => dimensionalize_ops p.1 coords ds))).filterMap createdName)
      = (L.map Prod.fst).filter (fun nm => !(coords.contains nm)) := by
  induction L with
  | nil => rfl
  | cons p rest ih =>
    by_cases hc : p.1 ∈ coords
    · simp only [List.flatMap_cons, List.filterMap_append, List.map_cons,
        List.filter_cons]
      simp [hc] at ih ⊢
      exact ih
    · cases hd : p.2.dims with
      | none =>
        simp only [List.flatMap_cons, List.filterMap_append, List.map_cons,
          List.filter_cons]
        simp [hc, hd, createdName, create_dataset_args] at ih ⊢
        exact ih
      | some ls =>
        simp only [List.flatMap_cons, List.filterMap_append, List.map_cons,
          List.filter_cons]
        simp [hc, hd, createdName, create_dataset_args, dimensionalize_ops,
          dim_ops_no_create] at ih ⊢
        exact ih

theorem filter_contains_coords (ds : List (String × DSpec)) :
    (ds.map Prod.fst).filter (fun nm => (find_coordinates ds).contains nm)
      = find_coordinates ds := by
  show _ = (ds.map Prod.fst).filter (fun nm => (all_dims ds).contains nm)
  apply List.filter_congr
  intro a ha
  by_cases hd : (all_dims ds).contains a = true
  · have hmem : a ∈ find_coordinates ds := by
      unfold find_coordinates
      exact List.mem_filter.mpr ⟨ha, hd⟩
    rw [hd, (contains_iff (find_coordinates ds) a).2 hmem]
  · rw [Bool.not_eq_true] at hd
    rw [hd]
    rw [Bool.eq_false_iff]
    intro hmem
    have := List.mem_filter.mp ((contains_iff _ a).1 hmem)
    rw [this.2] at hd
    cases hd

/-- C3: the Coordinate set is exactly the intersection of the schema's key
set with the labels appearing in any dataset's dims; every coordinate is
created in the store before any non-coordinate dataset, with its own dims
discarded (no axis of a coordinate is ever labelled or bound); and after
creation every axis of a non-coordinate dataset is labelled, with the axis
bound to a coordinate as its scale exactly when its label is a coordinate
name, while every attached scale is a schema key (labels that are not schema
keys stay unlinked axis labels). -/
theorem coordinate_resolution (ds : List (String × DSpec)) :
    (∀ nm, nm ∈ find_coordinates ds ↔ nm ∈ ds.map Prod.fst ∧ nm ∈ all_dims ds) ∧
    ((initialize_datasets ds).filterMap createdName =
      find_coordinates ds ++
        (ds.map Prod.fst).filter (fun nm => !((find_coordinates ds).contains nm))) ∧
    (∀ nm ax lb, StoreOp.setLabel nm ax lb ∈ initialize_datasets ds →
      (find_coordinates ds).contains nm = false) ∧
    (∀ nm ax c, StoreOp.attachScale nm ax c ∈ initialize_datasets ds →
      (find_coordinates ds).contains nm = false ∧
      (find_coordinates ds).contains c = true ∧ c ∈ ds.map Prod.fst) ∧
    (∀ p ∈ ds, ∀ ls, (find_coordinates ds).contains p.1 = false →
      p.2.dims = some ls → ∀ j, j < ls.length →
        StoreOp.setLabel p.1 j (ls.getD j "") ∈ initialize_datasets ds ∧
        ((find_coordinates ds).contains (ls.getD j "") = true →
          StoreOp.attachScale p.1 j (ls.getD j "") ∈ initialize_datasets ds)) := by
  have hmem_data : ∀ {op : StoreOp}, op ∈ initialize_datasets ds →
      (∃ nm sh ms c d u, op = StoreOp.createDataset nm sh ms c d u) ∨
      (∃ p, p ∈ ds ∧ (find_coordinates ds).contains p.1 = false ∧
        (∃ ls, p.2.dims = some ls ∧ op ∈ dim_ops p.1 (find_coordinates ds) 0 ls)) := by
    intro op hop
    unfold initialize_datasets at hop
    rcases List.mem_append.mp hop with h | h
    · rcases List.mem_filterMap.mp h with ⟨p, _, hp⟩
      by_cases hc : (find_coordinates ds).contains p.1
      · rw [if_pos hc] at hp
        injection hp with hp
        exact Or.inl ⟨p.1, p.2.shape, some p.2.shape, p.2.chunks, p.2.dtype, p.2.units,
          hp.symm⟩
      · rw [if_neg hc] at hp
        cases hp
    · rcases List.mem_flatMap.mp h with ⟨p, hpmem, hp⟩
      by_cases hc : (find_coordinates ds).contains p.1
      · rw [if_pos hc] at hp
        simp at hp
      · rw [if_neg hc] at hp
        rcases List.mem_cons.mp hp with he | he
        · exact Or.inl ⟨p.1, p.2.shape, some p.2.shape, p.2.chunks, p.2.dtype, p.2.units,
            he⟩
        · cases hd : p.2.dims with
          | none => rw [hd] at he; cases he
          | some ls =>
            rw [hd] at he
            refine Or.inr ⟨p, hpmem, by simpa using hc, ls, hd, ?_⟩
            simpa [dimensionalize_ops] using he
  refine ⟨?_, ?_, ?_, ?_, ?_⟩
  · intro nm
    unfold find_coordinates
    rw [List.mem_filter]
    constructor
    · exact fun h => ⟨h.1, (contains_iff _ nm).1 h.2⟩
    · exact fun h => ⟨h.1, (contains_iff _ nm).2 h.2⟩
  · unfold initialize_datasets
    rw [List.filterMap_append, coordOps_names, dataOps_names, filter_contains_coords]
  · intro nm ax lb hop
    rcases hmem_data hop with ⟨_, _, _, _, _, _, he⟩ | ⟨p, _, hc, ls, _, hmm⟩
    · cases he
    · rcases mem_dim_ops hmm with ⟨j, lb', he, _⟩ | ⟨j, lb', he, _, _⟩
      · injection he with h1 _ _
        rw [← h1] at hc
        exact hc
      · cases he
  · intro nm ax c hop
    rcases hmem_data hop with ⟨_, _, _, _, _, _, he⟩ | ⟨p, hpmem, hc, ls, hd, hmm⟩
    · cases he
    · rcases mem_dim_ops hmm with ⟨j, lb', he, _⟩ | ⟨j, lb', he, hlb, hcc⟩
      · cases he
      · injection he with h1 _ h3
        refine ⟨h1 ▸ hc, h3 ▸ hcc, ?_⟩
        have := List.mem_filter.mp ((contains_iff _ lb').1 hcc)
        exact h3 ▸ this.1
  · intro p hpmem ls hc hd j hj
    have hpos := dim_ops_pos p.1 (find_coordinates ds) ls 0 j hj
    have hsub : ∀ {op : StoreOp}, op ∈ dim_ops p.1 (find_coordinates ds) 0 ls →
        op ∈ initialize_datasets ds := by
      intro op hop
      unfold initialize_datasets
      apply List.mem_append_right
      apply List.mem_flatMap.mpr
      refine ⟨p, hpmem, ?_⟩
      rw [if_neg (by rw [hc]; simp), hd]
      exact List.mem_cons_of_mem _ (by simpa [dimensionalize_ops] using hop)
    constructor
    · have := hsub hpos.1
      simpa using this
    · intro hcc
      have := hsub (hpos.2 hcc)
      simpa using this

/-- Witness for C3 at the spec's scenario: schema x: shape (5,), units Hz and
z: shape (3,5), dims (n, x).  The coordinate set is exactly the singleton x. -/
theorem coordinate_resolution_witness :
    ("x" ∈ find_coordinates
        [("x", ⟨[5], Chunks.bool true, none, none, some "Hz", []⟩),
         ("z", ⟨[3, 5], Chunks.bool true, none, some ["n", "x"], none, []⟩)] ↔
      ("x" ∈ ([("x", ⟨[5], Chunks.bool true, none, none, some "Hz", []⟩),
         ("z", ⟨[3, 5], Chunks.bool true, none, some ["n", "x"], none, []⟩)] :
          List (String × DSpec)).map Prod.fst ∧
       "x" ∈ all_dims
        [("x", ⟨[5], Chunks.bool true, none, none, some "Hz", []⟩),
         ("z", ⟨[3, 5], Chunks.bool true, none, some ["n", "x"], none, []⟩)])) ∧
    StoreOp.attachScale "z" 1 "x" ∈ initialize_datasets
        [("x", ⟨[5], Chunks.bool true, none, none, some "Hz", []⟩),
         ("z", ⟨[3, 5], Chunks.bool true, none, some ["n", "x"], none, []⟩)] := by
  constructor
  · exact (coordinate_resolution
      [("x", ⟨[5], Chunks.bool true, none, none, some "Hz", []⟩),
       ("z", ⟨[3, 5], Chunks.bool true, none, some ["n", "x"], none, []⟩)]).1 "x"
  · have h := ((coordinate_resolution
      [("x", ⟨[5], Chunks.bool true, none, none, some "Hz", []⟩),
       ("z", ⟨[3, 5], Chunks.bool true, none, some ["n", "x"], none, []⟩)]).2.2.2.2
      ("z", ⟨[3, 5], Chunks.bool true, none, some ["n", "x"], none, []⟩)
      (by simp) ["n", "x"] (by decide) rfl 1 (by decide)).2 (by decide)
    simpa using h

/-! ### Metadata coercion rules -/

/-- Spec-side predicate: all elements have exactly the same runtime type
(the claim's wording), to be compared with the source's isinstance-based
check `sameTypeAll`. -/
def allSameExactType (vs : List PyVal) : Bool :=
  match vs with
  | [] => true
  | x :: rest => rest.all (fun v => typeOf v == typeOf x)

theorem isinst_self (v : PyVal) : isinst v (typeOf v) = true := by
  cases v <;> rfl

theorem exact_imp_sameType (vs : List PyVal) (h : allSameExactType vs = true) :
    sameTypeAll vs = true := by
  cases vs with
  | nil => rfl
  | cons x rest =>
    simp only [allSameExactType] at h
    simp only [sameTypeAll]
    rw [List.all_eq_true] at h ⊢
    intro v hv
    have heq : typeOf v = typeOf x := by simpa using h v hv
    rw [← heq]
    exact isinst_self v

/-- Over this value universe the source's isinstance check can only exceed
exact type equality through the bool-is-an-int subclassing, which the
all-numeric disjunct already covers. -/
theorem sameType_imp (vs : List PyVal) (h : sameTypeAll vs = true) :
    vs.all isNumber = true ∨ allSameExactType vs = true := by
  cases vs with
  | nil => exact Or.inr rfl
  | cons x rest =>
    simp only [sameTypeAll] at h
    rw [List.all_eq_true] at h
    cases hx : typeOf x
    case tInt =>
      left
      rw [List.all_eq_true]
      intro v hv
      rcases List.mem_cons.mp hv with rfl | hv'
      · cases v <;> simp_all [typeOf, isNumber]
      · have hh := h v hv'
        rw [hx] at hh
        cases v <;> simp_all [isinst, isNumber]
    all_goals
      right
      simp only [allSameExactType]
      rw [List.all_eq_true]
      intro v hv
      have hh := h v hv
      rw [hx] at hh
      rw [hx]
      exact hh

/-- C7: metadata value coercion obeys the claimed rules: an empty sequence is
stored as an empty sequence; a single-element sequence is unwrapped; a
multi-element sequence that is all numeric or all of exactly the same type is
stored as-is; any other sequence becomes a mapping keyed by stringified
position and is recursed on as a mapping; None becomes the explicit empty
marker; and a mapping value becomes a child group rather than a leaf. -/
theorem parseSeq_cons_cons (a b : PyVal) (t : List PyVal) :
    parse_attribute.parseSeq (a :: b :: t) =
      if ((a :: b :: t).all isNumber || sameTypeAll (a :: b :: t)) = true
      then PyVal.list (a :: b :: t)
      else PyVal.dict (enumFrom 0 (a :: b :: t)) := rfl

theorem metadata_coercion (x : PyVal) (l : List PyVal) (k : String)
    (kvs rest : List (String × PyVal)) :
    (parse_attribute (PyVal.list []) = PyVal.list [] ∧
     parse_attribute (PyVal.tup []) = PyVal.list []) ∧
    (parse_attribute (PyVal.list [x]) = x ∧ parse_attribute (PyVal.tup [x]) = x) ∧
    (2 ≤ l.length → l.all isNumber = true →
      parse_attribute (PyVal.list l) = PyVal.list l) ∧
    (2 ≤ l.length → allSameExactType l = true →
      parse_attribute (PyVal.list l) = PyVal.list l) ∧
    (2 ≤ l.length → l.all isNumber = false → allSameExactType l = false →
      parse_attribute (PyVal.list l) = PyVal.dict (enumFrom 0 l)) ∧
    (parse_attribute PyVal.none_ = PyVal.empty) ∧
    (parse_attribute (PyVal.dict kvs) = PyVal.dict kvs ∧
     saveMeta ((k, PyVal.dict kvs) :: rest) =
       (k, MetaNode.group (saveMeta kvs)) :: saveMeta rest) := by
  refine ⟨⟨rfl, rfl⟩, ⟨rfl, rfl⟩, ?_, ?_, ?_, rfl, rfl, ?_⟩
  · intro hlen hnum
    cases l with
    | nil => simp at hlen
    | cons a t =>
      cases t with
      | nil => simp at hlen
      | cons b t' =>
        show parse_attribute.parseSeq (a :: b :: t') = _
        rw [parseSeq_cons_cons, if_pos (by simp [hnum])]
  · intro hlen hsame
    cases l with
    | nil => simp at hlen
    | cons a t =>
      cases t with
      | nil => simp at hlen
      | cons b t' =>
        show parse_attribute.parseSeq (a :: b :: t') = _
        rw [parseSeq_cons_cons, if_pos (by simp [exact_imp_sameType _ hsame])]
  · intro hlen hnum hexact
    have hst : sameTypeAll l = false := by
      cases hs : sameTypeAll l
      · rfl
      · rcases sameType_imp l hs with hnum' | hex
        · rw [hnum'] at hnum; cases hnum
        · rw [hex] at hexact; cases hexact
    cases l with
    | nil => simp at hlen
    | cons a t =>
      cases t with
      | nil => simp at hlen
      | cons b t' =>
        show parse_attribute.parseSeq (a :: b :: t') = _
        rw [parseSeq_cons_cons, if_neg (by simp [hnum, hst])]
  · simp only [saveMeta, parse_attribute]

/-- Witness for C7 at the spec's example: the heterogeneous list of 1 and
the string a becomes the indexed mapping. -/
theorem metadata_coercion_witness :
    parse_attribute (PyVal.list [PyVal.int 1, PyVal.str "a"]) =
      PyVal.dict [("0", PyVal.int 1), ("1", PyVal.str "a")] := by
  have h := (metadata_coercion (PyVal.int 5) [PyVal.int 1, PyVal.str "a"] "k"
    [] []).2.2.2.2.1 (by decide) (by rfl) (by rfl)
  rw [h]
  rfl

/-! ### Chunking and maximum shape -/

/-- C8 counterexample: the source's `_create_dataset` passes
`maxshape = shape` for every chunks value — there is no chunking mode that
yields a null maximum shape, and session entry assigns an extent vector to
every dataset, including one whose chunks value is not the auto-chunking
default. -/
theorem chunking_maxshape_counterexample :
    (create_dataset_args "d" [3, 5] (Chunks.bool false) none none =
      StoreOp.createDataset "d" [3, 5] (some [3, 5]) (Chunks.bool false) none none) ∧
    (create_dataset_args "d" [3, 5] (Chunks.bool true) none none =
      StoreOp.createDataset "d" [3, 5] (some [3, 5]) (Chunks.bool true) none none) ∧
    (create_dataset_args "d" [3, 5] (Chunks.explicit [1, 5]) none none =
      StoreOp.createDataset "d" [3, 5] (some [3, 5]) (Chunks.explicit [1, 5]) none none) ∧
    (some [3, 5] ≠ (none : Option (List Int))) ∧
    ((dsEnter ⟨false, false,
        [("d", ⟨[3, 5], Chunks.bool false, none, none, none, []⟩)]⟩).st.dataspec =
      [("d", ⟨[3, 5], Chunks.bool false, none, none, none, [0, 0]⟩)]) := by
  decide

/-- C8 amended: every created dataset, whatever its chunks value, receives
the declared shape as its maximum shape (resizable storage); no null maximum
shape is ever passed, and session entry gives every dataset an all-zero
extent vector of its rank. -/
theorem chunking_maxshape_amended (ds : List (String × DSpec)) (st : SState)
    (h : st.lock = false) :
    (∀ nm sh ms c d u,
      StoreOp.createDataset nm sh ms c d u ∈ initialize_datasets ds → ms = some sh) ∧
    (∀ p ∈ (dsEnter st).st.dataspec,
      p.2.size = List.replicate p.2.shape.length 0) := by
  constructor
  · intro nm sh ms c d u hop
    unfold initialize_datasets at hop
    rcases List.mem_append.mp hop with h1 | h1
    · rcases List.mem_filterMap.mp h1 with ⟨p, _, hp⟩
      by_cases hc : (find_coordinates ds).contains p.1 = true
      · rw [if_pos hc] at hp
        injection hp with heq
        unfold create_dataset_args at heq
        injection heq with e1 e2 e3
        rw [← e3, e2]
      · rw [if_neg hc] at hp
        cases hp
    · rcases List.mem_flatMap.mp h1 with ⟨p, hpmem, hp⟩
      by_cases hc : (find_coordinates ds).contains p.1 = true
      · rw [if_pos hc] at hp
        simp at hp
      · rw [if_neg hc] at hp
        rcases List.mem_cons.mp hp with he | he
        · unfold create_dataset_args at he
          injection he.symm with e1 e2 e3
          rw [← e3, e2]
        · cases hd : p.2.dims with
          | none => rw [hd] at he; cases he
          | some ls =>
            rw [hd] at he
            rcases mem_dim_ops (by simpa [dimensionalize_ops] using he) with
              ⟨j, lb, hee, _⟩ | ⟨j, lb, hee, _, _⟩ <;> cases hee
  · intro p hp
    have hst : (dsEnter st).st.dataspec
        = st.dataspec.map (fun p =>
            (p.1, { p.2 with size := List.replicate p.2.shape.length 0 })) := by
      unfold dsEnter
      rw [if_neg (by simp [h])]
    rw [hst] at hp
    rcases List.mem_map.mp hp with ⟨q, hq, rfl⟩
    rfl

/-- Witness for the amended C8: the single dataset with non-default chunks
value gets the extent vector (0, 0) at session entry. -/
theorem chunking_maxshape_amended_witness :
    ("d", (⟨[3, 5], Chunks.bool false, none, none, none, [0, 0]⟩ : DSpec)).2.size
      = List.replicate
          ("d", (⟨[3, 5], Chunks.bool false, none, none, none, [0, 0]⟩ : DSpec)).2.shape.length
          (0 : Int) := by
  exact (chunking_maxshape_amended
      [("d", ⟨[3, 5], Chunks.bool false, none, none, none, []⟩)]
      ⟨false, false, [("d", ⟨[3, 5], Chunks.bool false, none, none, none, []⟩)]⟩ rfl).2
      ("d", ⟨[3, 5], Chunks.bool false, none, none, none, [0, 0]⟩) (by decide)

end Datahandler
